import Mathlib

/-
Verification of the reservoir-sampling core of `randline`.

The Rust source (src/sampling.rs) implements "Algorithm L"-style reservoir
sampling: items are paired with random f64 weights drawn from U[0,1) and kept
in a `BinaryHeap` ordered by weight; once the reservoir holds k entries, each
further item either is discarded (its weight exceeds the current maximum) or
replaces the maximum-weight entry.

Embedding conventions:
  - Priority weights are modelled as rationals (`ℚ`).  The Rust code draws
    its f64 weights with `gen_range(0.0..1.0)`, which always yields a value
    in [0,1) and never NaN, so the ordering of the weights that actually
    occur is total; `ℚ` is a totally ordered field with no NaN, making the
    `partial_cmp(..).unwrap()` in `WeightedItem::cmp` total by construction.
  - The stream of random draws is a function `w : ℕ → ℚ`; the i-th call of
    `pick_weight()` returns `w i`.  Exactly one draw is made per item pulled
    from the source, in arrival order, so draw index = consumption index.
  - The source iterator is a `List`; pulling `next()` splits off the head.
    Each function additionally threads `consumed`, the trace of items pulled
    from the source so far, in pull order (ghost data used only to state
    consumption properties; it never influences control flow).
  - The `BinaryHeap` is modelled as a `List` of entries: `push` appends,
    `peek().unwrap().weight` is `maxWeight?`, and `pop` (`popMax`) removes an
    entry of maximal weight.  Rust's heap removes *some* maximal entry under
    ties (`WeightedItem`'s order compares only weights); the model removes
    the earliest-pushed maximal entry.  All stated properties are about the
    multiset of entries, never about internal order, matching `into_vec`'s
    unspecified order.
  - Panics (`unwrap()` on `peek`, the `assert!` on `pop().is_some()`, and the
    final `assert!(sample.len() == k)`) are modelled by returning `none`.
-/

namespace Randline

/-- An item tagged with the random priority weight drawn for it; mirrors
`WeightedItem` in src/sampling.rs (weights as `ℚ`, see the header comment). -/
structure WeightedItem (T : Type) where
  item : T
  weight : ℚ
deriving DecidableEq

/-- The weight of the maximum-weight entry of the reservoir, i.e. the value of
`reservoir.peek().map(|e| e.weight)` for the weight-ordered `BinaryHeap`. -/
def maxWeight? {T : Type} : List (WeightedItem T) → Option ℚ
  | [] => none
  | e :: es =>
    match maxWeight? es with
    | none => some e.weight
    | some m => some (max e.weight m)

/-- `BinaryHeap::pop` on the weight-ordered heap: removes an entry of maximal
weight (the earliest-pushed one under ties) and returns it with the rest. -/
def popMax {T : Type} : List (WeightedItem T) → Option (WeightedItem T × List (WeightedItem T))
  | [] => none
  | e :: es =>
    match popMax es with
    | none => some (e, [])
    | some (m, rest) => if e.weight < m.weight then some (m, e :: rest) else some (e, es)

/-- The observable outcome of one call of `reservoir_sample`: the returned
sample and the trace of items pulled from the source, in pull order. -/
structure SampleRun (T : Type) where
  sample : List T
  consumed : List T
deriving DecidableEq

/-- Result of the fill phase (`for _ in 1..=k { match items.next() ... }`):
either the source was exhausted early (the `None => return ...` arm), or the
reservoir was filled with k entries and the loop fell through. -/
inductive FillResult (T : Type) where
  | exhausted (r : List (WeightedItem T)) (consumed : List T)
  | filled (r : List (WeightedItem T)) (remaining : List T) (consumed : List T) (i : ℕ)
deriving DecidableEq

/-- The fill phase of `reservoir_sample`: pull up to `n` more items, pairing
each with the next random draw `w i` and pushing it onto the reservoir. -/
def fillPhase {T : Type} (w : ℕ → ℚ) :
    ℕ → List T → List T → ℕ → List (WeightedItem T) → FillResult T
  | 0, rem, cons, i, r => FillResult.filled r rem cons i
  | _ + 1, [], cons, _, r => FillResult.exhausted r cons
  | n + 1, x :: xs, cons, i, r =>
      fillPhase w n xs (cons ++ [x]) (i + 1) (r ++ [⟨x, w i⟩])

/-- The replacement phase of `reservoir_sample` (`for this_item in items`):
draw a weight for the pulled item; skip it if the weight exceeds `maxw`,
otherwise pop the maximal entry, push the new one and re-read the maximum.
`none` models a panic (a failing `assert!` / `unwrap`). -/
def replaceLoop {T : Type} (w : ℕ → ℚ) :
    List T → List T → ℕ → List (WeightedItem T) → ℚ →
      Option (List (WeightedItem T) × List T)
  | [], cons, _, r, _ => some (r, cons)
  | x :: xs, cons, i, r, maxw =>
    if maxw < w i then
      replaceLoop w xs (cons ++ [x]) (i + 1) r maxw
    else
      match popMax r with
      | none => none
      | some (_, r1) =>
        match maxWeight? (r1 ++ [⟨x, w i⟩]) with
        | none => none
        | some mw => replaceLoop w xs (cons ++ [x]) (i + 1) (r1 ++ [⟨x, w i⟩]) mw

/-- Embedding of `reservoir_sample` from src/sampling.rs.  Returns `none` when
the Rust code would panic; otherwise `some` of the returned sample together
with the trace of items consumed from the source. -/
def reservoir_sample {T : Type} (items : List T) (k : ℕ) (w : ℕ → ℚ) :
    Option (SampleRun T) :=
  if k = 0 then some ⟨[], []⟩
  else
    match fillPhase w k items [] 0 [] with
    | FillResult.exhausted r cons => some ⟨r.map (fun e => e.item), cons⟩
    | FillResult.filled r rem cons i =>
      match maxWeight? r with
      | none => none
      | some mw =>
        match replaceLoop w rem cons i r mw with
        | none => none
        | some (rf, consf) =>
          if (rf.map (fun e => e.item)).length = k then
            some ⟨rf.map (fun e => e.item), consf⟩
          else none

/-- The weighted stream: the items of `l`, each paired with the draw made at
its consumption index (indices starting at `i`).  `weightedFromIdx w items 0`
is the whole stream of (item, key) pairs considered by one sampling run. -/
def weightedFromIdx {T : Type} (w : ℕ → ℚ) : List T → ℕ → List (WeightedItem T)
  | [], _ => []
  | x :: xs, i => ⟨x, w i⟩ :: weightedFromIdx w xs (i + 1)

/-- Models `pick_weight` in src/sampling.rs: `gen_range(0.0..1.0)` draws a
value in the half-open interval [0,1) (and hence never NaN).  Stated as the
predicate satisfied by every value `pick_weight()` can return. -/
def pick_weight_range (q : ℚ) : Prop := 0 ≤ q ∧ q < 1

/- ### Reachable reservoir states

The following predicates record every intermediate value taken by the
`reservoir` variable during one run, mirroring the two loops step by step;
they let "at every step" claims be stated about the code. -/

/-- `FillReach w n rem i r r'` holds iff the reservoir holds `r'` at some
point during `fillPhase w n rem cons i r` (the consumed trace does not
affect the reservoir and is omitted). -/
inductive FillReach {T : Type} (w : ℕ → ℚ) :
    ℕ → List T → ℕ → List (WeightedItem T) → List (WeightedItem T) → Prop
  | here (n : ℕ) (rem : List T) (i : ℕ) (r : List (WeightedItem T)) :
      FillReach w n rem i r r
  | step (n : ℕ) (x : T) (xs : List T) (i : ℕ) (r r' : List (WeightedItem T)) :
      FillReach w n xs (i + 1) (r ++ [⟨x, w i⟩]) r' →
      FillReach w (n + 1) (x :: xs) i r r'

/-- `ReplaceReach w rem i r maxw r'` holds iff the reservoir holds `r'` at
some point during `replaceLoop w rem cons i r maxw`. -/
inductive ReplaceReach {T : Type} (w : ℕ → ℚ) :
    List T → ℕ → List (WeightedItem T) → ℚ → List (WeightedItem T) → Prop
  | here (rem : List T) (i : ℕ) (r : List (WeightedItem T)) (maxw : ℚ) :
      ReplaceReach w rem i r maxw r
  | skip (x : T) (xs : List T) (i : ℕ) (r r' : List (WeightedItem T)) (maxw : ℚ) :
      maxw < w i →
      ReplaceReach w xs (i + 1) r maxw r' →
      ReplaceReach w (x :: xs) i r maxw r'
  | accept (x : T) (xs : List T) (i : ℕ) (r r1 r' : List (WeightedItem T))
      (m : WeightedItem T) (maxw mw : ℚ) :
      ¬ maxw < w i →
      popMax r = some (m, r1) →
      maxWeight? (r1 ++ [⟨x, w i⟩]) = some mw →
      ReplaceReach w xs (i + 1) (r1 ++ [⟨x, w i⟩]) mw r' →
      ReplaceReach w (x :: xs) i r maxw r'

/-- `r'` is a value taken by the reservoir at some point during
`reservoir_sample items k w`: during the fill phase, or during the
replacement phase entered after a completed fill. -/
def SampleReach {T : Type} (items : List T) (k : ℕ) (w : ℕ → ℚ)
    (r' : List (WeightedItem T)) : Prop :=
  FillReach w k items 0 [] r' ∨
    ∃ r rem cons i mw,
      fillPhase w k items [] 0 [] = FillResult.filled r rem cons i ∧
      maxWeight? r = some mw ∧ ReplaceReach w rem i r mw r'

/- ### The pipeline of main.rs

main.rs feeds `reservoir_sample` the iterator
`stdin.lines().map(|line| match line { Ok(ln) => ln, Err(e) => exit(1) })`:
pulling a line that fails to read prints to stderr and exits the whole
process.  The source is therefore a list of `Except E T`; the loops below
are the two loops of `reservoir_sample` driven by that mapped iterator,
where pulling an `Except.error` aborts everything (the process exit). -/

/-- Fill-phase result over main.rs's mapped stdin iterator: as `FillResult`,
plus `died` for a process exit caused by a line-read failure. -/
inductive FillResultE (E T : Type) where
  | exhausted (r : List (WeightedItem T))
  | filled (r : List (WeightedItem T)) (remaining : List (Except E T)) (i : ℕ)
  | died (e : E)

/-- The fill phase of `reservoir_sample` driven by main.rs's mapped stdin
iterator. -/
def fillPhaseE {E T : Type} (w : ℕ → ℚ) :
    ℕ → List (Except E T) → ℕ → List (WeightedItem T) → FillResultE E T
  | 0, rem, i, r => FillResultE.filled r rem i
  | _ + 1, [], _, r => FillResultE.exhausted r
  | _ + 1, Except.error e :: _, _, _ => FillResultE.died e
  | n + 1, Except.ok x :: xs, i, r => fillPhaseE w n xs (i + 1) (r ++ [⟨x, w i⟩])

/-- The replacement phase of `reservoir_sample` driven by main.rs's mapped
stdin iterator.  `Except.error e` is the process exit on a read failure;
`Except.ok none` models a panic. -/
def replaceLoopE {E T : Type} (w : ℕ → ℚ) :
    List (Except E T) → ℕ → List (WeightedItem T) → ℚ →
      Except E (Option (List (WeightedItem T)))
  | [], _, r, _ => Except.ok (some r)
  | Except.error e :: _, _, _, _ => Except.error e
  | Except.ok x :: xs, i, r, maxw =>
    if maxw < w i then replaceLoopE w xs (i + 1) r maxw
    else
      match popMax r with
      | none => Except.ok none
      | some (_, r1) =>
        match maxWeight? (r1 ++ [⟨x, w i⟩]) with
        | none => Except.ok none
        | some mw => replaceLoopE w xs (i + 1) (r1 ++ [⟨x, w i⟩]) mw

/-- The sampling pipeline of main.rs: `reservoir_sample(lines, k)` where
`lines` is the mapped stdin iterator.  `Except.error e` is a fatal process
exit on a read failure (no sample is produced at all); `Except.ok (some s)`
is a successful run whose sample `s` is then printed. -/
def runMainSampler {E T : Type} (lines : List (Except E T)) (k : ℕ) (w : ℕ → ℚ) :
    Except E (Option (List T)) :=
  if k = 0 then Except.ok (some [])
  else
    match fillPhaseE w k lines 0 [] with
    | FillResultE.died e => Except.error e
    | FillResultE.exhausted r => Except.ok (some (r.map (fun e => e.item)))
    | FillResultE.filled r rem i =>
      match maxWeight? r with
      | none => Except.ok none
      | some mw =>
        match replaceLoopE w rem i r mw with
        | Except.error e => Except.error e
        | Except.ok none => Except.ok none
        | Except.ok (some rf) =>
          if (rf.map (fun e => e.item)).length = k then
            Except.ok (some (rf.map (fun e => e.item)))
          else Except.ok none

/- ### Basic lemmas about the heap model -/

theorem maxWeight?_eq_none_iff {T : Type} {l : List (WeightedItem T)} :
    maxWeight? l = none ↔ l = [] := by
  cases l with
  | nil => simp [maxWeight?]
  | cons e es =>
    simp only [maxWeight?]
    cases maxWeight? es <;> simp

theorem maxWeight?_isSome {T : Type} {l : List (WeightedItem T)} (h : l ≠ []) :
    ∃ m, maxWeight? l = some m := by
  cases hm : maxWeight? l with
  | none => exact absurd (maxWeight?_eq_none_iff.mp hm) h
  | some m => exact ⟨m, rfl⟩

theorem maxWeight?_mem {T : Type} {l : List (WeightedItem T)} {m : ℚ}
    (h : maxWeight? l = some m) : m ∈ l.map (fun e => e.weight) := by
  induction l generalizing m with
  | nil => simp [maxWeight?] at h
  | cons e es ih =>
    simp only [maxWeight?] at h
    cases hm : maxWeight? es with
    | none =>
      rw [hm] at h
      simp only [Option.some.injEq] at h
      simp [← h]
    | some m' =>
      rw [hm] at h
      simp only [Option.some.injEq] at h
      rcases max_choice e.weight m' with hc | hc
      · rw [hc] at h; simp [← h]
      · rw [hc] at h
        subst h
        simpa using Or.inr (ih hm)

theorem maxWeight?_ub {T : Type} {l : List (WeightedItem T)} {m : ℚ}
    (h : maxWeight? l = some m) : ∀ e ∈ l, e.weight ≤ m := by
  induction l generalizing m with
  | nil => simp
  | cons e es ih =>
    simp only [maxWeight?] at h
    cases hm : maxWeight? es with
    | none =>
      rw [hm] at h
      simp only [Option.some.injEq] at h
      have hes : es = [] := maxWeight?_eq_none_iff.mp hm
      subst hes
      simp [← h]
    | some m' =>
      rw [hm] at h
      simp only [Option.some.injEq] at h
      intro a ha
      rcases List.mem_cons.mp ha with rfl | ha
      · rw [← h]; exact le_max_left _ _
      · exact le_trans (ih hm a ha) (h ▸ le_max_right _ _)

theorem popMax_eq_none_iff {T : Type} {l : List (WeightedItem T)} :
    popMax l = none ↔ l = [] := by
  cases l with
  | nil => simp [popMax]
  | cons e es =>
    simp only [popMax]
    cases popMax es with
    | none => simp
    | some p =>
      obtain ⟨m, rest⟩ := p
      by_cases hlt : e.weight < m.weight <;> simp [hlt]

theorem popMax_isSome {T : Type} {l : List (WeightedItem T)} (h : l ≠ []) :
    ∃ p, popMax l = some p := by
  cases hp : popMax l with
  | none => exact absurd (popMax_eq_none_iff.mp hp) h
  | some p => exact ⟨p, rfl⟩

theorem popMax_perm {T : Type} {l r1 : List (WeightedItem T)} {m : WeightedItem T}
    (h : popMax l = some (m, r1)) : l.Perm (m :: r1) := by
  induction l generalizing m r1 with
  | nil => simp [popMax] at h
  | cons e es ih =>
    simp only [popMax] at h
    cases hp : popMax es with
    | none =>
      have hes : es = [] := popMax_eq_none_iff.mp hp
      rw [hp] at h
      simp only [Option.some.injEq, Prod.mk.injEq] at h
      obtain ⟨rfl, rfl⟩ := h
      subst hes
      exact List.Perm.refl _
    | some p =>
      obtain ⟨m', rest⟩ := p
      rw [hp] at h
      have h' : (if e.weight < m'.weight then some (m', e :: rest) else some (e, es)) =
          some (m, r1) := h
      by_cases hlt : e.weight < m'.weight
      · rw [if_pos hlt] at h'
        simp only [Option.some.injEq, Prod.mk.injEq] at h'
        obtain ⟨rfl, rfl⟩ := h'
        exact ((ih hp).cons e).trans (List.Perm.swap _ e rest)
      · rw [if_neg hlt] at h'
        simp only [Option.some.injEq, Prod.mk.injEq] at h'
        obtain ⟨rfl, rfl⟩ := h'
        exact List.Perm.refl _

theorem popMax_weight {T : Type} {l r1 : List (WeightedItem T)} {m : WeightedItem T}
    (h : popMax l = some (m, r1)) : maxWeight? l = some m.weight := by
  induction l generalizing m r1 with
  | nil => simp [popMax] at h
  | cons e es ih =>
    simp only [popMax] at h
    cases hp : popMax es with
    | none =>
      have hes : es = [] := popMax_eq_none_iff.mp hp
      rw [hp] at h
      simp only [Option.some.injEq, Prod.mk.injEq] at h
      obtain ⟨rfl, rfl⟩ := h
      subst hes
      simp [maxWeight?]
    | some p =>
      obtain ⟨m', rest⟩ := p
      rw [hp] at h
      have h' : (if e.weight < m'.weight then some (m', e :: rest) else some (e, es)) =
          some (m, r1) := h
      have hes : maxWeight? es = some m'.weight := ih hp
      by_cases hlt : e.weight < m'.weight
      · rw [if_pos hlt] at h'
        simp only [Option.some.injEq, Prod.mk.injEq] at h'
        obtain ⟨rfl, rfl⟩ := h'
        simp [maxWeight?, hes, max_eq_right (le_of_lt hlt)]
      · rw [if_neg hlt] at h'
        simp only [Option.some.injEq, Prod.mk.injEq] at h'
        obtain ⟨rfl, rfl⟩ := h'
        simp [maxWeight?, hes, max_eq_left (le_of_not_lt hlt)]

/- ### Lemmas about the weighted stream -/

theorem weightedFromIdx_length {T : Type} (w : ℕ → ℚ) :
    ∀ (l : List T) (i : ℕ), (weightedFromIdx w l i).length = l.length := by
  intro l
  induction l with
  | nil => intro i; rfl
  | cons x xs ih => intro i; simp [weightedFromIdx, ih]

theorem weightedFromIdx_append {T : Type} (w : ℕ → ℚ) :
    ∀ (l₁ l₂ : List T) (i : ℕ),
      weightedFromIdx w (l₁ ++ l₂) i =
        weightedFromIdx w l₁ i ++ weightedFromIdx w l₂ (i + l₁.length) := by
  intro l₁
  induction l₁ with
  | nil => intro l₂ i; simp [weightedFromIdx]
  | cons x xs ih =>
    intro l₂ i
    have h : i + 1 + xs.length = i + (xs.length + 1) := by omega
    simp only [List.cons_append, weightedFromIdx, List.length_cons, List.append_eq, ih, h]

theorem weightedFromIdx_map_item {T : Type} (w : ℕ → ℚ) :
    ∀ (l : List T) (i : ℕ), (weightedFromIdx w l i).map (fun e => e.item) = l := by
  intro l
  induction l with
  | nil => intro i; rfl
  | cons x xs ih => intro i; simp [weightedFromIdx, ih]

/- ### The fill phase -/

theorem fillPhase_spec {T : Type} (w : ℕ → ℚ) :
    ∀ (n : ℕ) (rem cons : List T) (i : ℕ) (r : List (WeightedItem T)),
      n ≤ rem.length →
      fillPhase w n rem cons i r =
        FillResult.filled (r ++ weightedFromIdx w (rem.take n) i)
          (rem.drop n) (cons ++ rem.take n) (i + n) := by
  intro n
  induction n with
  | zero => intro rem cons i r _; simp [fillPhase, weightedFromIdx]
  | succ n ih =>
    intro rem cons i r hn
    cases rem with
    | nil => simp at hn
    | cons x xs =>
      simp only [List.length_cons, Nat.succ_le_succ_iff] at hn
      simp only [fillPhase]
      have heq := ih xs (cons ++ [x]) (i + 1) (r ++ [⟨x, w i⟩]) hn
      rw [heq]
      simp only [FillResult.filled.injEq, List.take_succ_cons, List.drop_succ_cons]
      refine ⟨?_, trivial, ?_, ?_⟩
      · simp [weightedFromIdx, List.append_assoc]
      · simp
      · omega

theorem fillPhase_exhaust {T : Type} (w : ℕ → ℚ) :
    ∀ (n : ℕ) (rem cons : List T) (i : ℕ) (r : List (WeightedItem T)),
      rem.length < n →
      fillPhase w n rem cons i r =
        FillResult.exhausted (r ++ weightedFromIdx w rem i) (cons ++ rem) := by
  intro n
  induction n with
  | zero => intro rem cons i r hn; simp at hn
  | succ n ih =>
    intro rem cons i r hn
    cases rem with
    | nil => simp [fillPhase, weightedFromIdx]
    | cons x xs =>
      simp only [List.length_cons, Nat.succ_lt_succ_iff] at hn
      simp only [fillPhase]
      have heq := ih xs (cons ++ [x]) (i + 1) (r ++ [⟨x, w i⟩]) hn
      rw [heq]
      simp only [FillResult.exhausted.injEq]
      refine ⟨?_, ?_⟩
      · simp [weightedFromIdx, List.append_assoc]
      · simp

/- ### The replacement loop: totality, length and consumption -/

theorem replaceLoop_some {T : Type} (w : ℕ → ℚ) :
    ∀ (rem cons : List T) (i : ℕ) (r : List (WeightedItem T)) (maxw : ℚ),
      r ≠ [] →
      ∃ rf consf, replaceLoop w rem cons i r maxw = some (rf, consf) ∧
        rf.length = r.length ∧ rf ≠ [] ∧ consf = cons ++ rem := by
  intro rem
  induction rem with
  | nil =>
    intro cons i r maxw hr
    exact ⟨r, cons, rfl, rfl, hr, by simp⟩
  | cons x xs ih =>
    intro cons i r maxw hr
    by_cases hlt : maxw < w i
    · obtain ⟨rf, consf, heq, hlen, hne, hcons⟩ := ih (cons ++ [x]) (i + 1) r maxw hr
      refine ⟨rf, consf, ?_, hlen, hne, ?_⟩
      · simp only [replaceLoop, if_pos hlt]
        exact heq
      · simp [hcons]
    · obtain ⟨⟨m, r1⟩, hpop⟩ := popMax_isSome hr
      have hperm := popMax_perm hpop
      have hr2 : (r1 ++ [(⟨x, w i⟩ : WeightedItem T)]) ≠ [] := by simp
      obtain ⟨mw, hmw⟩ := maxWeight?_isSome hr2
      obtain ⟨rf, consf, heq, hlen, hne, hcons⟩ :=
        ih (cons ++ [x]) (i + 1) (r1 ++ [⟨x, w i⟩]) mw hr2
      refine ⟨rf, consf, ?_, ?_, hne, ?_⟩
      · simp only [replaceLoop, if_neg hlt, hpop, hmw]
        exact heq
      · rw [hlen]
        have hl : r.length = r1.length + 1 := by simpa using hperm.length_eq
        simp [hl]
      · simp [hcons]

/- ### The whole sampling run: totality, sample length, consumption trace -/

theorem reservoir_sample_run {T : Type} (items : List T) (k : ℕ) (w : ℕ → ℚ) :
    ∃ run, reservoir_sample items k w = some run ∧
      run.sample.length = min k items.length ∧
      run.consumed = (if k = 0 then [] else items) ∧
      (items.length ≤ k → run.sample = items) := by
  by_cases hk : k = 0
  · subst hk
    refine ⟨⟨[], []⟩, by simp [reservoir_sample], by simp, by simp, ?_⟩
    intro h
    have h0 : items = [] := List.length_eq_zero.mp (Nat.le_zero.mp h)
    simp [h0]
  · rcases lt_trichotomy items.length k with hlt | heq | hgt
    · -- source exhausts during the fill phase
      have hfill := fillPhase_exhaust w k items [] 0 [] hlt
      simp only [List.nil_append] at hfill
      refine ⟨⟨(weightedFromIdx w items 0).map (fun e => e.item), items⟩, ?_, ?_, ?_, ?_⟩
      · simp [reservoir_sample, if_neg hk, hfill]
      · simp [weightedFromIdx_length, min_eq_right (le_of_lt hlt)]
      · simp [hk]
      · intro _
        exact weightedFromIdx_map_item w items 0
    · -- the source has exactly k items: the replacement loop runs on nothing
      have hle : k ≤ items.length := le_of_eq heq.symm
      have hfill := fillPhase_spec w k items [] 0 [] hle
      have htake : items.take k = items := by rw [← heq]; exact List.take_length items
      have hdrop : items.drop k = [] := by rw [← heq]; exact List.drop_length items
      rw [htake, hdrop] at hfill
      simp only [List.nil_append, Nat.zero_add] at hfill
      have hr0 : weightedFromIdx w items 0 ≠ [] := by
        intro hnil
        have hlen0 := weightedFromIdx_length w items 0
        rw [hnil] at hlen0
        simp only [List.length_nil] at hlen0
        omega
      obtain ⟨mw, hmw⟩ := maxWeight?_isSome hr0
      have hlen : ((weightedFromIdx w items 0).map (fun e => e.item)).length = k := by
        rw [List.length_map, weightedFromIdx_length, heq]
      refine ⟨⟨(weightedFromIdx w items 0).map (fun e => e.item), items⟩, ?_, ?_, ?_, ?_⟩
      · simp [reservoir_sample, if_neg hk, hfill, hmw, replaceLoop, hlen]
      · simp [weightedFromIdx_length, heq]
      · simp [hk]
      · intro _
        exact weightedFromIdx_map_item w items 0
    · -- more items than k: the replacement loop consumes the rest
      have hle : k ≤ items.length := le_of_lt hgt
      have hfill := fillPhase_spec w k items [] 0 [] hle
      simp only [List.nil_append, Nat.zero_add] at hfill
      have hr0len : (weightedFromIdx w (items.take k) 0).length = k := by
        rw [weightedFromIdx_length, List.length_take, min_eq_left hle]
      have hr0 : weightedFromIdx w (items.take k) 0 ≠ [] := by
        intro hnil
        rw [hnil] at hr0len
        simp only [List.length_nil] at hr0len
        omega
      obtain ⟨mw, hmw⟩ := maxWeight?_isSome hr0
      obtain ⟨rf, consf, heqr, hlenr, hner, hconsr⟩ :=
        replaceLoop_some w (items.drop k) (items.take k) k
          (weightedFromIdx w (items.take k) 0) mw hr0
      have hconsf : consf = items := by rw [hconsr, List.take_append_drop]
      have hlenf : (rf.map (fun e => e.item)).length = k := by
        rw [List.length_map, hlenr, hr0len]
      refine ⟨⟨rf.map (fun e => e.item), consf⟩, ?_, ?_, ?_, ?_⟩
      · simp [reservoir_sample, if_neg hk, hfill, hmw, heqr, hlenf]
      · rw [hlenf, min_eq_left hle]
      · rw [hconsf]
        simp [hk]
      · intro h
        exact absurd h (not_le.mpr hgt)

/- ### The replacement loop keeps exactly the smallest-key entries -/

/-- Invariant proof for the replacement phase.  `seen` is the weighted stream
processed so far; the reservoir is a sub-multiset of `seen` whose keys are all
strictly below every other key of `seen`, and `maxw` is its maximal key.
Provided all keys of the whole stream are pairwise distinct, the loop
preserves this: at the end the reservoir holds exactly the entries of the
full stream whose keys all sit strictly below every key left outside. -/
theorem replaceLoop_inv {T : Type} (w : ℕ → ℚ) :
    ∀ (rem cons : List T) (i : ℕ) (r seen : List (WeightedItem T)) (maxw : ℚ),
      (↑r : Multiset (WeightedItem T)) ≤ ↑seen →
      (((seen ++ weightedFromIdx w rem i).map (fun e => e.weight)).Nodup) →
      (∀ e ∈ r, ∀ e' ∈ seen, e'.weight ∉ r.map (fun e => e.weight) →
        e.weight < e'.weight) →
      maxWeight? r = some maxw →
      ∃ rf consf, replaceLoop w rem cons i r maxw = some (rf, consf) ∧
        rf.length = r.length ∧
        (↑rf : Multiset (WeightedItem T)) ≤ ↑(seen ++ weightedFromIdx w rem i) ∧
        (∀ e ∈ rf, ∀ e' ∈ seen ++ weightedFromIdx w rem i,
          e'.weight ∉ rf.map (fun e => e.weight) → e.weight < e'.weight) := by
  intro rem
  induction rem with
  | nil =>
    intro cons i r seen maxw hsub hnodup hmin hmax
    refine ⟨r, cons, rfl, rfl, ?_, ?_⟩
    · simpa [weightedFromIdx] using hsub
    · simpa [weightedFromIdx] using hmin
  | cons x xs ih =>
    intro cons i r seen maxw hsub hnodup hmin hmax
    have hkey : seen ++ weightedFromIdx w (x :: xs) i
        = (seen ++ [⟨x, w i⟩]) ++ weightedFromIdx w xs (i + 1) := by
      simp [weightedFromIdx, List.append_assoc]
    have hsub_seen : (↑(seen) : Multiset (WeightedItem T))
        ≤ ↑(seen ++ [(⟨x, w i⟩ : WeightedItem T)]) := by
      rw [← Multiset.coe_add]
      exact Multiset.le_add_right _ _
    by_cases hlt : maxw < w i
    · -- the new item's key beats the maximum: it is skipped
      have hmin' : ∀ e ∈ r, ∀ e' ∈ seen ++ [(⟨x, w i⟩ : WeightedItem T)],
          e'.weight ∉ r.map (fun e => e.weight) → e.weight < e'.weight := by
        intro e he e' he' hnot
        rcases List.mem_append.mp he' with h1 | h2
        · exact hmin e he e' h1 hnot
        · have hx : e' = ⟨x, w i⟩ := by simpa using h2
          subst hx
          exact lt_of_le_of_lt (maxWeight?_ub hmax e he) hlt
      have hnodup' : (((seen ++ [(⟨x, w i⟩ : WeightedItem T)]) ++
          weightedFromIdx w xs (i + 1)).map (fun e => e.weight)).Nodup := by
        rw [← hkey]
        exact hnodup
      obtain ⟨rf, consf, heq, hlen, hsubf, hminf⟩ :=
        ih (cons ++ [x]) (i + 1) r (seen ++ [⟨x, w i⟩]) maxw
          (le_trans hsub hsub_seen) hnodup' hmin' hmax
      refine ⟨rf, consf, ?_, hlen, ?_, ?_⟩
      · simp only [replaceLoop, if_pos hlt]
        exact heq
      · rw [hkey]
        exact hsubf
      · rw [hkey]
        exact hminf
    · -- the new item unseats the maximal entry
      have hle : w i ≤ maxw := le_of_not_lt hlt
      -- distinctness facts
      have hnodup_split : ((seen.map (fun e => e.weight)).Nodup ∧
          ((weightedFromIdx w (x :: xs) i).map (fun e => e.weight)).Nodup) ∧
          (seen.map (fun e => e.weight)).Disjoint
            ((weightedFromIdx w (x :: xs) i).map (fun e => e.weight)) := by
        rw [List.map_append] at hnodup
        have h := List.nodup_append.mp hnodup
        exact ⟨⟨h.1, h.2.1⟩, h.2.2⟩
      have hmaxw_seen : maxw ∈ seen.map (fun e => e.weight) := by
        have h1 : maxw ∈ r.map (fun e => e.weight) := maxWeight?_mem hmax
        have h2 : (↑(r.map (fun e => e.weight)) : Multiset ℚ)
            ≤ ↑(seen.map (fun e => e.weight)) := by
          have := Multiset.map_le_map (f := fun e : WeightedItem T => e.weight) hsub
          simpa using this
        exact Multiset.mem_coe.mp (Multiset.mem_of_le h2 (Multiset.mem_coe.mpr h1))
      have htw_mem : w i ∈ (weightedFromIdx w (x :: xs) i).map (fun e => e.weight) := by
        simp [weightedFromIdx]
      have htw_ne : w i ≠ maxw := by
        intro hcontra
        exact hnodup_split.2 hmaxw_seen (hcontra ▸ htw_mem)
      have htw_lt : w i < maxw := lt_of_le_of_ne hle htw_ne
      -- pop the maximal entry
      have hrne : r ≠ [] := by
        intro h
        rw [h] at hmax
        simp [maxWeight?] at hmax
      obtain ⟨⟨m, r1⟩, hpop⟩ := popMax_isSome hrne
      have hperm : r.Perm (m :: r1) := popMax_perm hpop
      have hmweq : m.weight = maxw := by
        have := popMax_weight hpop
        rw [hmax] at this
        exact (Option.some.injEq _ _ ▸ this).symm
      have hr2ne : (r1 ++ [(⟨x, w i⟩ : WeightedItem T)]) ≠ [] := by simp
      obtain ⟨mw2, hmw2⟩ := maxWeight?_isSome hr2ne
      -- weights inside the reservoir are pairwise distinct
      have hnd_r : (r.map (fun e => e.weight)).Nodup := by
        have h2 : (↑(r.map (fun e => e.weight)) : Multiset ℚ)
            ≤ ↑(seen.map (fun e => e.weight)) := by
          have := Multiset.map_le_map (f := fun e : WeightedItem T => e.weight) hsub
          simpa using this
        exact Multiset.coe_nodup.mp
          (Multiset.nodup_of_le h2 (Multiset.coe_nodup.mpr hnodup_split.1.1))
      have hnd_mr1 : (m.weight :: r1.map (fun e => e.weight)).Nodup := by
        have hpm : (r.map (fun e => e.weight)).Perm
            (m.weight :: r1.map (fun e => e.weight)) := by
          simpa using hperm.map (fun e => e.weight)
        exact (hpm.nodup_iff).mp hnd_r
      have hmax_not_r1 : maxw ∉ r1.map (fun e => e.weight) := by
        have := (List.nodup_cons.mp hnd_mr1).1
        rwa [hmweq] at this
      have hr1_lt : ∀ e ∈ r1, e.weight < maxw := by
        intro e he
        have hmem_r : e ∈ r := (hperm.mem_iff).mpr (List.mem_cons_of_mem m he)
        have hub : e.weight ≤ maxw := maxWeight?_ub hmax e hmem_r
        rcases lt_or_eq_of_le hub with h | h
        · exact h
        · exact absurd (h ▸ List.mem_map_of_mem (fun e => e.weight) he) hmax_not_r1
      -- the new reservoir still consists of minimal-key entries
      have hmin' : ∀ e ∈ r1 ++ [(⟨x, w i⟩ : WeightedItem T)],
          ∀ e' ∈ seen ++ [(⟨x, w i⟩ : WeightedItem T)],
          e'.weight ∉ (r1 ++ [(⟨x, w i⟩ : WeightedItem T)]).map (fun e => e.weight) →
          e.weight < e'.weight := by
        intro e he e' he' hnot
        rcases List.mem_append.mp he' with h1 | h2
        · by_cases hcase : e'.weight = maxw
          · rw [hcase]
            rcases List.mem_append.mp he with he1 | he2
            · exact hr1_lt e he1
            · have hx : e = ⟨x, w i⟩ := by simpa using he2
              rw [hx]
              exact htw_lt
          · have hnotr : e'.weight ∉ r.map (fun e => e.weight) := by
              intro hmem
              have hpm : (r.map (fun e => e.weight)).Perm
                  (m.weight :: r1.map (fun e => e.weight)) := by
                simpa using hperm.map (fun e => e.weight)
              have hmem' := (hpm.mem_iff).mp hmem
              rcases List.mem_cons.mp hmem' with hh | hh
              · exact hcase (hmweq ▸ hh)
              · refine hnot ?_
                rw [List.map_append]
                exact List.mem_append.mpr (Or.inl hh)
            have hall : ∀ e2 ∈ r, e2.weight < e'.weight :=
              fun e2 he2 => hmin e2 he2 e' h1 hnotr
            rcases List.mem_append.mp he with he1 | he2
            · exact hall e ((hperm.mem_iff).mpr (List.mem_cons_of_mem m he1))
            · have hx : e = ⟨x, w i⟩ := by simpa using he2
              rw [hx]
              have hmr : m ∈ r := (hperm.mem_iff).mpr (List.mem_cons_self m r1)
              have := hall m hmr
              rw [hmweq] at this
              exact lt_trans htw_lt this
        · have hx : e' = ⟨x, w i⟩ := by simpa using h2
          exfalso
          apply hnot
          rw [hx]
          simp
      have hsub' : (↑(r1 ++ [(⟨x, w i⟩ : WeightedItem T)]) : Multiset (WeightedItem T))
          ≤ ↑(seen ++ [(⟨x, w i⟩ : WeightedItem T)]) := by
        rw [← Multiset.coe_add, ← Multiset.coe_add]
        apply add_le_add_right
        have hr1r : (↑r1 : Multiset (WeightedItem T)) ≤ ↑r := by
          have hcoe : (↑r : Multiset (WeightedItem T)) = m ::ₘ ↑r1 := by
            rw [Multiset.coe_eq_coe.mpr hperm, Multiset.cons_coe]
          rw [hcoe]
          exact Multiset.le_cons_self _ _
        exact le_trans hr1r hsub
      have hnodup' : (((seen ++ [(⟨x, w i⟩ : WeightedItem T)]) ++
          weightedFromIdx w xs (i + 1)).map (fun e => e.weight)).Nodup := by
        rw [← hkey]
        exact hnodup
      obtain ⟨rf, consf, heq, hlen, hsubf, hminf⟩ :=
        ih (cons ++ [x]) (i + 1) (r1 ++ [⟨x, w i⟩]) (seen ++ [⟨x, w i⟩]) mw2
          hsub' hnodup' hmin' hmw2
      refine ⟨rf, consf, ?_, ?_, ?_, ?_⟩
      · simp only [replaceLoop, if_neg hlt, hpop, hmw2]
        exact heq
      · rw [hlen]
        have hl : r.length = r1.length + 1 := by simpa using hperm.length_eq
        simp [hl]
      · rw [hkey]
        exact hsubf
      · rw [hkey]
        exact hminf

/- ### Reachable-state lemmas -/

theorem fillReach_length {T : Type} {w : ℕ → ℚ} {n : ℕ} {rem : List T} {i : ℕ}
    {r r' : List (WeightedItem T)} (h : FillReach w n rem i r r') :
    r'.length ≤ r.length + n := by
  induction h with
  | here n rem i r => exact Nat.le_add_right _ _
  | step n x xs i r r' _ ih =>
    simp only [List.length_append, List.length_singleton] at ih
    omega

theorem replaceReach_length {T : Type} {w : ℕ → ℚ} {rem : List T} {i : ℕ}
    {r r' : List (WeightedItem T)} {maxw : ℚ} (h : ReplaceReach w rem i r maxw r') :
    r'.length = r.length := by
  induction h with
  | here rem i r maxw => rfl
  | skip x xs i r r' maxw _ _ ih => exact ih
  | accept x xs i r r1 r' m maxw mw _ hpop _ _ ih =>
    have hperm := popMax_perm hpop
    have hlp : r.length = r1.length + 1 := by simpa using hperm.length_eq
    simp only [List.length_append, List.length_singleton] at ih
    omega

theorem fillPhase_filled_len {T : Type} (w : ℕ → ℚ) :
    ∀ (n : ℕ) (rem cons : List T) (i : ℕ) (r0 : List (WeightedItem T))
      {r : List (WeightedItem T)} {rem' cons' : List T} {i' : ℕ},
      fillPhase w n rem cons i r0 = FillResult.filled r rem' cons' i' →
      r.length = r0.length + n := by
  intro n
  induction n with
  | zero =>
    intro rem cons i r0 r rem' cons' i' h
    simp only [fillPhase, FillResult.filled.injEq] at h
    rw [← h.1]
    simp
  | succ n ih =>
    intro rem cons i r0 r rem' cons' i' h
    cases rem with
    | nil => simp [fillPhase] at h
    | cons x xs =>
      simp only [fillPhase] at h
      have hr := ih xs (cons ++ [x]) (i + 1) (r0 ++ [⟨x, w i⟩]) h
      simp only [List.length_append, List.length_singleton] at hr
      omega

/-- Characterization of a completed fill starting from the initial state:
it happens exactly when the source has at least `k` items, and then the
reservoir is the weighted prefix and `rem` the rest of the source. -/
theorem fillPhase_filled_main {T : Type} {w : ℕ → ℚ} {items : List T} {k : ℕ}
    {r : List (WeightedItem T)} {rem cons : List T} {i : ℕ}
    (h : fillPhase w k items [] 0 [] = FillResult.filled r rem cons i) :
    k ≤ items.length ∧ r = weightedFromIdx w (items.take k) 0 ∧
      rem = items.drop k ∧ i = k := by
  by_cases hle : k ≤ items.length
  · have hspec := fillPhase_spec w k items [] 0 [] hle
    rw [hspec] at h
    simp only [List.nil_append, Nat.zero_add, FillResult.filled.injEq] at h
    exact ⟨hle, h.1.symm, h.2.1.symm, h.2.2.2.symm⟩
  · have hspec := fillPhase_exhaust w k items [] 0 [] (lt_of_not_le hle)
    rw [hspec] at h
    simp at h

/-- The weighted stream splits at position `k` into the fill-phase entries
and the replacement-phase entries. -/
theorem weightedFromIdx_take_drop {T : Type} (w : ℕ → ℚ) (items : List T) (k : ℕ)
    (hle : k ≤ items.length) :
    weightedFromIdx w items 0 =
      weightedFromIdx w (items.take k) 0 ++ weightedFromIdx w (items.drop k) k := by
  have hlen : (items.take k).length = k := by
    rw [List.length_take]
    exact min_eq_left hle
  have happ := weightedFromIdx_append w (items.take k) (items.drop k) 0
  rw [List.take_append_drop, hlen, Nat.zero_add] at happ
  exact happ

theorem fillReach_sub {T : Type} {w : ℕ → ℚ} {n : ℕ} {rem : List T} {i : ℕ}
    {r r' : List (WeightedItem T)} (h : FillReach w n rem i r r') :
    (↑r' : Multiset (WeightedItem T)) ≤ ↑(r ++ weightedFromIdx w rem i) := by
  induction h with
  | here n rem i r =>
    rw [← Multiset.coe_add]
    exact Multiset.le_add_right _ _
  | step n x xs i r r' _ ih =>
    have heq : (r ++ [(⟨x, w i⟩ : WeightedItem T)]) ++ weightedFromIdx w xs (i + 1)
        = r ++ weightedFromIdx w (x :: xs) i := by
      simp [weightedFromIdx, List.append_assoc]
    rwa [heq] at ih

theorem replaceReach_sub {T : Type} {w : ℕ → ℚ} {rem : List T} {i : ℕ}
    {r r' : List (WeightedItem T)} {maxw : ℚ} (h : ReplaceReach w rem i r maxw r') :
    (↑r' : Multiset (WeightedItem T)) ≤ ↑(r ++ weightedFromIdx w rem i) := by
  induction h with
  | here rem i r maxw =>
    rw [← Multiset.coe_add]
    exact Multiset.le_add_right _ _
  | skip x xs i r r' maxw _ _ ih =>
    refine le_trans ih ?_
    rw [← Multiset.coe_add, ← Multiset.coe_add]
    apply add_le_add_left
    have hstream : (↑(weightedFromIdx w (x :: xs) i) : Multiset (WeightedItem T))
        = (⟨x, w i⟩ : WeightedItem T) ::ₘ ↑(weightedFromIdx w xs (i + 1)) := by
      rw [weightedFromIdx, Multiset.cons_coe]
    rw [hstream]
    exact Multiset.le_cons_self _ _
  | accept x xs i r r1 r' m maxw mw _ hpop _ _ ih =>
    refine le_trans ih ?_
    have hcoe : (↑r : Multiset (WeightedItem T)) = m ::ₘ ↑r1 := by
      rw [Multiset.coe_eq_coe.mpr (popMax_perm hpop), Multiset.cons_coe]
    have hr1 : (↑r1 : Multiset (WeightedItem T)) ≤ ↑r := by
      rw [hcoe]
      exact Multiset.le_cons_self _ _
    have hstream : (↑(weightedFromIdx w (x :: xs) i) : Multiset (WeightedItem T))
        = (⟨x, w i⟩ : WeightedItem T) ::ₘ ↑(weightedFromIdx w xs (i + 1)) := by
      rw [weightedFromIdx, Multiset.cons_coe]
    rw [← Multiset.coe_add, ← Multiset.coe_add, ← Multiset.coe_add, hstream,
      ← Multiset.singleton_add, Multiset.coe_singleton]
    calc (↑r1 : Multiset (WeightedItem T)) + {(⟨x, w i⟩ : WeightedItem T)} +
          ↑(weightedFromIdx w xs (i + 1))
        ≤ ↑r + {(⟨x, w i⟩ : WeightedItem T)} + ↑(weightedFromIdx w xs (i + 1)) := by
          exact add_le_add_right (add_le_add_right hr1 _) _
      _ = ↑r + ({(⟨x, w i⟩ : WeightedItem T)} + ↑(weightedFromIdx w xs (i + 1))) := by
          rw [add_assoc]

/- ### Lemmas about the main.rs pipeline -/

theorem replaceLoopE_err {E T : Type} (w : ℕ → ℚ) :
    ∀ (oks : List T) (e : E) (junk : List (Except E T)) (i : ℕ)
      (r : List (WeightedItem T)) (maxw : ℚ), r ≠ [] →
      replaceLoopE w (oks.map Except.ok ++ Except.error e :: junk) i r maxw =
        Except.error e := by
  intro oks
  induction oks with
  | nil =>
    intro e junk i r maxw _
    simp [replaceLoopE]
  | cons o os ih =>
    intro e junk i r maxw hr
    by_cases hlt : maxw < w i
    · simp only [List.map_cons, List.cons_append, replaceLoopE, if_pos hlt]
      exact ih e junk (i + 1) r maxw hr
    · obtain ⟨⟨m, r1⟩, hpop⟩ := popMax_isSome hr
      have hr2 : (r1 ++ [(⟨o, w i⟩ : WeightedItem T)]) ≠ [] := by simp
      obtain ⟨mw, hmw⟩ := maxWeight?_isSome hr2
      simp only [List.map_cons, List.cons_append, replaceLoopE, if_neg hlt, hpop, hmw]
      exact ih e junk (i + 1) _ mw hr2

theorem fillPhaseE_ok_spec {E T : Type} (w : ℕ → ℚ) :
    ∀ (n : ℕ) (oks : List T) (tail : List (Except E T)) (i : ℕ)
      (r : List (WeightedItem T)), n ≤ oks.length →
      fillPhaseE w n (oks.map Except.ok ++ tail) i r =
        FillResultE.filled (r ++ weightedFromIdx w (oks.take n) i)
          ((oks.drop n).map Except.ok ++ tail) (i + n) := by
  intro n
  induction n with
  | zero =>
    intro oks tail i r _
    simp [fillPhaseE, weightedFromIdx]
  | succ n ih =>
    intro oks tail i r hn
    cases oks with
    | nil => simp at hn
    | cons o os =>
      simp only [List.length_cons, Nat.succ_le_succ_iff] at hn
      simp only [List.map_cons, List.cons_append, fillPhaseE, List.append_eq]
      have heq := ih os tail (i + 1) (r ++ [⟨o, w i⟩]) hn
      rw [heq]
      simp only [FillResultE.filled.injEq, List.take_succ_cons, List.drop_succ_cons]
      refine ⟨?_, trivial, ?_⟩
      · simp [weightedFromIdx, List.append_assoc]
      · omega

theorem fillPhaseE_died {E T : Type} (w : ℕ → ℚ) :
    ∀ (n : ℕ) (oks : List T) (e : E) (junk : List (Except E T)) (i : ℕ)
      (r : List (WeightedItem T)), oks.length < n →
      fillPhaseE w n (oks.map Except.ok ++ Except.error e :: junk) i r =
        FillResultE.died e := by
  intro n
  induction n with
  | zero =>
    intro oks e junk i r h
    simp at h
  | succ n ih =>
    intro oks e junk i r h
    cases oks with
    | nil => simp [fillPhaseE]
    | cons o os =>
      simp only [List.length_cons, Nat.succ_lt_succ_iff] at h
      simp only [List.map_cons, List.cons_append, fillPhaseE]
      exact ih os e junk (i + 1) (r ++ [⟨o, w i⟩]) h

theorem fillPhaseE_exhaust {E T : Type} (w : ℕ → ℚ) :
    ∀ (n : ℕ) (oks : List T) (i : ℕ) (r : List (WeightedItem T)),
      oks.length < n →
      fillPhaseE w n (oks.map (Except.ok : T → Except E T)) i r =
        FillResultE.exhausted (r ++ weightedFromIdx w oks i) := by
  intro n
  induction n with
  | zero =>
    intro oks i r h
    simp at h
  | succ n ih =>
    intro oks i r h
    cases oks with
    | nil => simp [fillPhaseE, weightedFromIdx]
    | cons o os =>
      simp only [List.length_cons, Nat.succ_lt_succ_iff] at h
      simp only [List.map_cons, fillPhaseE]
      have heq := ih os (i + 1) (r ++ [⟨o, w i⟩]) h
      rw [heq]
      simp [weightedFromIdx, List.append_assoc]

theorem replaceLoopE_ok {E T : Type} (w : ℕ → ℚ) :
    ∀ (oks cons : List T) (i : ℕ) (r rf : List (WeightedItem T)) (maxw : ℚ)
      (consf : List T),
      replaceLoop w oks cons i r maxw = some (rf, consf) →
      replaceLoopE w (oks.map (Except.ok : T → Except E T)) i r maxw =
        Except.ok (some rf) := by
  intro oks
  induction oks with
  | nil =>
    intro cons i r rf maxw consf h
    simp only [replaceLoop, Option.some.injEq, Prod.mk.injEq] at h
    simp [replaceLoopE, h.1]
  | cons o os ih =>
    intro cons i r rf maxw consf h
    by_cases hlt : maxw < w i
    · simp only [replaceLoop, if_pos hlt] at h
      simp only [List.map_cons, replaceLoopE, if_pos hlt]
      exact ih (cons ++ [o]) (i + 1) r rf maxw consf h
    · simp only [replaceLoop, if_neg hlt] at h
      cases hpop : popMax r with
      | none =>
        simp [hpop] at h
      | some p =>
        obtain ⟨m, r1⟩ := p
        simp only [hpop] at h
        cases hmw : maxWeight? (r1 ++ [⟨o, w i⟩]) with
        | none =>
          simp [hmw] at h
        | some mw =>
          simp only [hmw] at h
          simp only [List.map_cons, replaceLoopE, if_neg hlt, hpop, hmw]
          exact ih (cons ++ [o]) (i + 1) _ rf mw consf h

/- ### Claim theorems -/

/-- C2: for every finite source and every non-negative `k`, the sequence
returned by `reservoir_sample` has length exactly `min k |source|`. -/
theorem reservoir_sample_length_eq_min {T : Type} (items : List T) (k : ℕ)
    (w : ℕ → ℚ) :
    ∃ run, reservoir_sample items k w = some run ∧
      run.sample.length = min k items.length := by
  obtain ⟨run, h1, h2, _, _⟩ := reservoir_sample_run items k w
  exact ⟨run, h1, h2⟩

/-- C3: whenever the source has at most `k` items (including the empty
source), `reservoir_sample` returns the complete source as a multiset: the
result is a permutation of the whole source. -/
theorem reservoir_sample_complete_when_source_small {T : Type} (items : List T)
    (k : ℕ) (w : ℕ → ℚ) (h : items.length ≤ k) :
    ∃ run, reservoir_sample items k w = some run ∧ run.sample.Perm items := by
  obtain ⟨run, h1, _, _, h4⟩ := reservoir_sample_run items k w
  refine ⟨run, h1, ?_⟩
  rw [h4 h]

/-- Witness for C3 at `items = [10, 20]`, `k = 3`, keys `w i = i`. -/
theorem reservoir_sample_complete_when_source_small_witness :
    ([10, 20] : List ℕ).length ≤ 3 ∧
      ∃ run, reservoir_sample ([10, 20] : List ℕ) 3 (fun i => (i : ℚ)) = some run ∧
        run.sample.Perm [10, 20] :=
  ⟨by decide,
    reservoir_sample_complete_when_source_small [10, 20] 3 (fun i => (i : ℚ))
      (by decide)⟩

/-- C6: for `k = 0` the sampler returns the empty sequence and consumes
nothing at all from the source (the `if k == 0` early return fires before
the iterator is ever pulled). -/
theorem reservoir_sample_k_zero {T : Type} (items : List T) (w : ℕ → ℚ) :
    reservoir_sample items 0 w = some ⟨[], []⟩ := by
  simp [reservoir_sample]

/-- C9: when every priority key drawn by `pick_weight` lies in [0,1) (and so
is never NaN, making the order total — totality is built into the `ℚ` model
of the keys), `reservoir_sample` never panics: the `unwrap` in
`WeightedItem::cmp`, the post-fill `peek().unwrap()`, the `pop()` assertion
and the final length assertion all succeed, i.e. the result is `some`. -/
theorem reservoir_sample_no_panic {T : Type} (items : List T) (k : ℕ)
    (w : ℕ → ℚ) (_hw : ∀ i, pick_weight_range (w i)) :
    ∃ run, reservoir_sample items k w = some run := by
  obtain ⟨run, h1, _, _, _⟩ := reservoir_sample_run items k w
  exact ⟨run, h1⟩

/-- Witness for C9 at `items = [5, 6, 7]`, `k = 2`, constant key 1/2. -/
theorem reservoir_sample_no_panic_witness :
    (∀ i : ℕ, pick_weight_range ((fun _ : ℕ => (1 : ℚ) / 2) i)) ∧
      ∃ run, reservoir_sample ([5, 6, 7] : List ℕ) 2 (fun _ : ℕ => (1 : ℚ) / 2)
        = some run :=
  ⟨fun _ => ⟨by norm_num, by norm_num⟩,
    reservoir_sample_no_panic [5, 6, 7] 2 (fun _ : ℕ => (1 : ℚ) / 2)
      (fun _ => ⟨by norm_num, by norm_num⟩)⟩

/-- C10 counterexample: for `k = 0` the source is left entirely unconsumed
(the `if k == 0` early return fires before the iterator is pulled), so the
claim that the source is always consumed to completion, with no trailing
items left unconsumed, fails at `k = 0` with the one-item source `[1]`. -/
theorem reservoir_sample_k_zero_leaves_source_unconsumed :
    ∃ run, reservoir_sample ([1] : List ℕ) 0 (fun _ : ℕ => (0 : ℚ)) = some run ∧
      run.consumed ≠ [1] :=
  ⟨⟨[], []⟩, rfl, by decide⟩

/-- C10 (amended to `k ≥ 1`): for `k ≥ 1` the sampler's only effect on the source is to consume
it exactly once, in arrival order, to completion: the trace of pulled items
is the whole source, in order, with nothing left unconsumed. -/
theorem reservoir_sample_consumes_source_once {T : Type} (items : List T)
    (k : ℕ) (w : ℕ → ℚ) (hk : 1 ≤ k) :
    ∃ run, reservoir_sample items k w = some run ∧ run.consumed = items := by
  obtain ⟨run, h1, _, h3, _⟩ := reservoir_sample_run items k w
  refine ⟨run, h1, ?_⟩
  rw [h3, if_neg (by omega)]

/-- Witness for C10 at `items = [1, 2, 3]`, `k = 1`, keys `w i = i`. -/
theorem reservoir_sample_consumes_source_once_witness :
    1 ≤ 1 ∧
      ∃ run, reservoir_sample ([1, 2, 3] : List ℕ) 1 (fun i => (i : ℚ)) = some run ∧
        run.consumed = [1, 2, 3] :=
  ⟨by decide,
    reservoir_sample_consumes_source_once [1, 2, 3] 1 (fun i => (i : ℚ)) (by decide)⟩

/-- C4: one step of the replacement phase.  A fresh key `w i` is drawn for
the pulled item (the loop continues at draw index `i + 1`).  If it is
strictly greater than `maxw` the item is discarded and the reservoir passed
on unchanged; otherwise the entry holding `maxw` is popped, the new item is
inserted with its key, and the loop continues with the recomputed maximum
of the new reservoir. -/
theorem replaceLoop_step_spec {T : Type} (w : ℕ → ℚ) (x : T) (xs cons : List T)
    (i : ℕ) (r : List (WeightedItem T)) (maxw : ℚ)
    (hmax : maxWeight? r = some maxw) :
    (maxw < w i →
      replaceLoop w (x :: xs) cons i r maxw =
        replaceLoop w xs (cons ++ [x]) (i + 1) r maxw) ∧
    (¬ maxw < w i →
      ∃ (m : WeightedItem T) (r1 : List (WeightedItem T)) (mw : ℚ),
        popMax r = some (m, r1) ∧ m.weight = maxw ∧
        r.Perm (m :: r1) ∧
        maxWeight? (r1 ++ [⟨x, w i⟩]) = some mw ∧
        mw ∈ (r1 ++ [(⟨x, w i⟩ : WeightedItem T)]).map (fun e => e.weight) ∧
        (∀ e ∈ r1 ++ [(⟨x, w i⟩ : WeightedItem T)], e.weight ≤ mw) ∧
        replaceLoop w (x :: xs) cons i r maxw =
          replaceLoop w xs (cons ++ [x]) (i + 1) (r1 ++ [⟨x, w i⟩]) mw) := by
  constructor
  · intro hlt
    simp only [replaceLoop, if_pos hlt]
  · intro hlt
    have hrne : r ≠ [] := by
      intro hcon
      rw [hcon] at hmax
      simp [maxWeight?] at hmax
    obtain ⟨⟨m, r1⟩, hpop⟩ := popMax_isSome hrne
    have hr2 : (r1 ++ [(⟨x, w i⟩ : WeightedItem T)]) ≠ [] := by simp
    obtain ⟨mw, hmw⟩ := maxWeight?_isSome hr2
    have hmweq : m.weight = maxw := by
      have h1 := popMax_weight hpop
      rw [hmax] at h1
      exact (Option.some.injEq _ _ ▸ h1).symm
    refine ⟨m, r1, mw, hpop, hmweq, popMax_perm hpop, hmw,
      maxWeight?_mem hmw, maxWeight?_ub hmw, ?_⟩
    simp only [replaceLoop, if_neg hlt, hpop, hmw]

/-- Witness for C4 at reservoir `[⟨5, 3⟩]`, `maxw = 3`, item 9 with key 1. -/
theorem replaceLoop_step_spec_witness :
    maxWeight? [(⟨5, 3⟩ : WeightedItem ℕ)] = some 3 ∧
      (((3 : ℚ) < 1 →
        replaceLoop (fun _ : ℕ => (1 : ℚ)) [9] [] 0 [⟨5, 3⟩] 3 =
          replaceLoop (fun _ : ℕ => (1 : ℚ)) [] [9] 1 [⟨5, 3⟩] 3) ∧
      (¬ (3 : ℚ) < 1 →
        ∃ (m : WeightedItem ℕ) (r1 : List (WeightedItem ℕ)) (mw : ℚ),
          popMax [(⟨5, 3⟩ : WeightedItem ℕ)] = some (m, r1) ∧
          m.weight = 3 ∧ ([(⟨5, 3⟩ : WeightedItem ℕ)]).Perm (m :: r1) ∧
          maxWeight? (r1 ++ [⟨9, 1⟩]) = some mw ∧
          mw ∈ (r1 ++ [(⟨9, 1⟩ : WeightedItem ℕ)]).map (fun e => e.weight) ∧
          (∀ e ∈ r1 ++ [(⟨9, 1⟩ : WeightedItem ℕ)], e.weight ≤ mw) ∧
          replaceLoop (fun _ : ℕ => (1 : ℚ)) [9] [] 0 [⟨5, 3⟩] 3 =
            replaceLoop (fun _ : ℕ => (1 : ℚ)) [] [9] 1 (r1 ++ [⟨9, 1⟩]) mw)) :=
  ⟨rfl, replaceLoop_step_spec (fun _ : ℕ => (1 : ℚ)) 9 [] [] 0 [⟨5, 3⟩] 3 rfl⟩

/-- C5: at every step of `reservoir_sample` — every reservoir state reached
during the fill phase or the replacement phase — the reservoir holds at
most `k` entries. -/
theorem reservoir_size_le_k {T : Type} (items : List T) (k : ℕ) (w : ℕ → ℚ)
    (r' : List (WeightedItem T)) (h : SampleReach items k w r') :
    r'.length ≤ k := by
  rcases h with h | ⟨r, rem, cons, i, mw, hfill, hmw, hreach⟩
  · have hlen := fillReach_length h
    simpa using hlen
  · have h1 := replaceReach_length hreach
    have h2 := fillPhase_filled_len w k items [] 0 [] hfill
    simp only [List.length_nil] at h2
    omega

/-- Witness for C5: the reservoir state reached after the single fill step
of sampling `[7]` with `k = 1`. -/
theorem reservoir_size_le_k_witness :
    SampleReach ([7] : List ℕ) 1 (fun _ : ℕ => (0 : ℚ)) [⟨7, 0⟩] ∧
      ([(⟨7, 0⟩ : WeightedItem ℕ)]).length ≤ 1 :=
  have hreach : SampleReach ([7] : List ℕ) 1 (fun _ : ℕ => (0 : ℚ)) [⟨7, 0⟩] :=
    Or.inl (FillReach.step 0 7 [] 0 [] [⟨7, 0⟩] (FillReach.here 0 [] 1 [⟨7, 0⟩]))
  ⟨hreach, reservoir_size_le_k [7] 1 (fun _ : ℕ => (0 : ℚ)) [⟨7, 0⟩] hreach⟩

/-- C8: every reservoir state ever reached is a sub-multiset of the weighted
stream `weightedFromIdx w items 0`, in which each item is paired with the
single key drawn at the moment it was first considered — so each entry's key
is assigned exactly once and never changed or recomputed later. -/
theorem reservoir_keys_assigned_once {T : Type} (items : List T) (k : ℕ)
    (w : ℕ → ℚ) (r' : List (WeightedItem T)) (h : SampleReach items k w r') :
    (↑r' : Multiset (WeightedItem T)) ≤ ↑(weightedFromIdx w items 0) := by
  rcases h with h | ⟨r, rem, cons, i, mw, hfill, hmw, hreach⟩
  · have hs := fillReach_sub h
    simpa using hs
  · obtain ⟨hle, hr, hrem, hi⟩ := fillPhase_filled_main hfill
    subst hr
    subst hrem
    subst hi
    have hs := replaceReach_sub hreach
    rw [weightedFromIdx_take_drop w items _ hle]
    exact hs

/-- Witness for C8: the reservoir state reached after the first fill step of
sampling `[3, 4]` with `k = 1`. -/
theorem reservoir_keys_assigned_once_witness :
    SampleReach ([3, 4] : List ℕ) 1 (fun _ : ℕ => (0 : ℚ)) [⟨3, 0⟩] ∧
      (↑[(⟨3, 0⟩ : WeightedItem ℕ)] : Multiset (WeightedItem ℕ))
        ≤ ↑(weightedFromIdx (fun _ : ℕ => (0 : ℚ)) [3, 4] 0) :=
  have hreach : SampleReach ([3, 4] : List ℕ) 1 (fun _ : ℕ => (0 : ℚ)) [⟨3, 0⟩] :=
    Or.inl (FillReach.step 0 3 [4] 0 [] [⟨3, 0⟩] (FillReach.here 0 [4] 1 [⟨3, 0⟩]))
  ⟨hreach, reservoir_keys_assigned_once [3, 4] 1 (fun _ : ℕ => (0 : ℚ)) [⟨3, 0⟩] hreach⟩

/-- C1: with `1 ≤ k ≤ N` and pairwise-distinct priority keys (one per item,
in arrival order), `reservoir_sample` returns exactly the items whose keys
are among the `k` smallest of all keys drawn over the whole stream: the
result is the image of a `k`-element sub-multiset `rf` of the weighted
stream whose keys all sit strictly below every key of the stream outside
`rf` — which, under distinctness, pins `rf` down as the `k` smallest. -/
theorem reservoir_sample_keeps_k_smallest_keys {T : Type} (items : List T)
    (k : ℕ) (w : ℕ → ℚ) (hk : 1 ≤ k) (hkN : k ≤ items.length)
    (hdist : ((weightedFromIdx w items 0).map (fun e => e.weight)).Nodup) :
    ∃ (run : SampleRun T) (rf : List (WeightedItem T)),
      reservoir_sample items k w = some run ∧
      run.sample = rf.map (fun e => e.item) ∧
      rf.length = k ∧
      (rf.map (fun e => e.weight)).Nodup ∧
      (↑rf : Multiset (WeightedItem T)) ≤ ↑(weightedFromIdx w items 0) ∧
      (∀ e ∈ rf, ∀ e' ∈ weightedFromIdx w items 0,
        e'.weight ∉ rf.map (fun e => e.weight) → e.weight < e'.weight) := by
  have hk0 : ¬ k = 0 := by omega
  have hfill := fillPhase_spec w k items [] 0 [] hkN
  simp only [List.nil_append, Nat.zero_add] at hfill
  have hr0len : (weightedFromIdx w (items.take k) 0).length = k := by
    rw [weightedFromIdx_length, List.length_take]
    exact min_eq_left hkN
  have hr0ne : weightedFromIdx w (items.take k) 0 ≠ [] := by
    intro hnil
    rw [hnil] at hr0len
    simp only [List.length_nil] at hr0len
    omega
  obtain ⟨mw, hmw⟩ := maxWeight?_isSome hr0ne
  have hsplit := weightedFromIdx_take_drop w items k hkN
  have hnodup2 : ((weightedFromIdx w (items.take k) 0 ++
      weightedFromIdx w (items.drop k) k).map (fun e => e.weight)).Nodup := by
    rw [← hsplit]
    exact hdist
  have hmin0 : ∀ e ∈ weightedFromIdx w (items.take k) 0,
      ∀ e' ∈ weightedFromIdx w (items.take k) 0,
      e'.weight ∉ (weightedFromIdx w (items.take k) 0).map (fun e => e.weight) →
      e.weight < e'.weight := by
    intro e _ e' he' hnot
    exact absurd (List.mem_map_of_mem _ he') hnot
  obtain ⟨rf, consf, heqr, hlen, hsubf, hminf⟩ :=
    replaceLoop_inv w (items.drop k) (items.take k) k
      (weightedFromIdx w (items.take k) 0) (weightedFromIdx w (items.take k) 0)
      mw (le_refl _) hnodup2 hmin0 hmw
  have hlenf : rf.length = k := by
    rw [hlen, hr0len]
  have hsample_len : (rf.map (fun e => e.item)).length = k := by
    rw [List.length_map, hlenf]
  refine ⟨⟨rf.map (fun e => e.item), consf⟩, rf, ?_, rfl, hlenf, ?_, ?_, ?_⟩
  · simp [reservoir_sample, if_neg hk0, hfill, hmw, heqr, hsample_len]
  · have hsw : (↑(rf.map (fun e => e.weight)) : Multiset ℚ)
        ≤ ↑((weightedFromIdx w (items.take k) 0 ++
            weightedFromIdx w (items.drop k) k).map (fun e => e.weight)) := by
      have hmap := Multiset.map_le_map (f := fun e : WeightedItem T => e.weight) hsubf
      simpa using hmap
    exact Multiset.coe_nodup.mp
      (Multiset.nodup_of_le hsw (Multiset.coe_nodup.mpr hnodup2))
  · rw [hsplit]
    exact hsubf
  · rw [hsplit]
    exact hminf

/-- Witness for C1 at `items = [10, 20, 30]`, `k = 2`, keys `w i = i`
(pairwise distinct). -/
theorem reservoir_sample_keeps_k_smallest_keys_witness :
    (1 ≤ 2 ∧ 2 ≤ ([10, 20, 30] : List ℕ).length ∧
      ((weightedFromIdx (fun i => (i : ℚ)) [10, 20, 30] 0).map
        (fun e => e.weight)).Nodup) ∧
      ∃ (run : SampleRun ℕ) (rf : List (WeightedItem ℕ)),
        reservoir_sample ([10, 20, 30] : List ℕ) 2 (fun i => (i : ℚ))
          = some run ∧
        run.sample = rf.map (fun e => e.item) ∧
        rf.length = 2 ∧
        (rf.map (fun e => e.weight)).Nodup ∧
        (↑rf : Multiset (WeightedItem ℕ))
          ≤ ↑(weightedFromIdx (fun i => (i : ℚ)) [10, 20, 30] 0) ∧
        (∀ e ∈ rf, ∀ e' ∈ weightedFromIdx (fun i => (i : ℚ)) [10, 20, 30] 0,
          e'.weight ∉ rf.map (fun e => e.weight) → e.weight < e'.weight) :=
  ⟨⟨by decide, by decide, by decide⟩,
    reservoir_sample_keeps_k_smallest_keys [10, 20, 30] 2 (fun i => (i : ℚ))
      (by decide) (by decide) (by decide)⟩

/-- C7: with `k ≥ 1` (main.rs only ever passes `k ≥ 1`), the sampling
pipeline of main.rs — `reservoir_sample` over the mapped stdin iterator
whose closure exits the process on a read failure — propagates any source
read failure as an immediate fatal error carrying that failure (so no
default item is substituted, no failed item skipped, and no truncated
sample returned), and on a failure-free source returns the full sampling
result unchanged. -/
theorem runMainSampler_propagates_read_failure {E T : Type} (oks : List T)
    (k : ℕ) (w : ℕ → ℚ) (hk : 1 ≤ k) :
    (∀ (e : E) (junk : List (Except E T)),
      runMainSampler (oks.map Except.ok ++ Except.error e :: junk) k w =
        Except.error e) ∧
    (∃ run, reservoir_sample oks k w = some run ∧
      runMainSampler (oks.map (Except.ok : T → Except E T)) k w =
        Except.ok (some run.sample)) := by
  have hk0 : ¬ k = 0 := by omega
  constructor
  · intro e junk
    by_cases hle : k ≤ oks.length
    · have hfillE := fillPhaseE_ok_spec w k oks (Except.error e :: junk) 0 [] hle
      simp only [List.nil_append, Nat.zero_add] at hfillE
      have hr0len : (weightedFromIdx w (oks.take k) 0).length = k := by
        rw [weightedFromIdx_length, List.length_take]
        exact min_eq_left hle
      have hr0ne : weightedFromIdx w (oks.take k) 0 ≠ [] := by
        intro hnil
        rw [hnil] at hr0len
        simp only [List.length_nil] at hr0len
        omega
      obtain ⟨mw, hmw⟩ := maxWeight?_isSome hr0ne
      have herr := replaceLoopE_err w (oks.drop k) e junk k
        (weightedFromIdx w (oks.take k) 0) mw hr0ne
      simp only [runMainSampler, if_neg hk0, hfillE, hmw, herr]
    · have hfillE := fillPhaseE_died w k oks e junk 0 [] (lt_of_not_le hle)
      simp [runMainSampler, if_neg hk0, hfillE]
  · by_cases hle : k ≤ oks.length
    · have hfill := fillPhase_spec w k oks [] 0 [] hle
      simp only [List.nil_append, Nat.zero_add] at hfill
      have hfillE := fillPhaseE_ok_spec w k oks ([] : List (Except E T)) 0 [] hle
      simp only [List.nil_append, List.append_nil, Nat.zero_add] at hfillE
      have hr0len : (weightedFromIdx w (oks.take k) 0).length = k := by
        rw [weightedFromIdx_length, List.length_take]
        exact min_eq_left hle
      have hr0ne : weightedFromIdx w (oks.take k) 0 ≠ [] := by
        intro hnil
        rw [hnil] at hr0len
        simp only [List.length_nil] at hr0len
        omega
      obtain ⟨mw, hmw⟩ := maxWeight?_isSome hr0ne
      obtain ⟨rf, consf, heqr, hlenr, hner, hconsr⟩ :=
        replaceLoop_some w (oks.drop k) (oks.take k) k
          (weightedFromIdx w (oks.take k) 0) mw hr0ne
      have heqrE := replaceLoopE_ok (E := E) w (oks.drop k) (oks.take k) k
        (weightedFromIdx w (oks.take k) 0) rf mw consf heqr
      have hsample_len : (rf.map (fun e => e.item)).length = k := by
        rw [List.length_map, hlenr, hr0len]
      refine ⟨⟨rf.map (fun e => e.item), consf⟩, ?_, ?_⟩
      · simp only [reservoir_sample, if_neg hk0, hfill, hmw, heqr]
        rw [if_pos hsample_len]
      · simp only [runMainSampler, if_neg hk0, hfillE, hmw, heqrE]
        rw [if_pos hsample_len]
    · have hlt := lt_of_not_le hle
      have hfill := fillPhase_exhaust w k oks [] 0 [] hlt
      simp only [List.nil_append] at hfill
      have hfillE := fillPhaseE_exhaust (E := E) w k oks 0 [] hlt
      simp only [List.nil_append] at hfillE
      refine ⟨⟨(weightedFromIdx w oks 0).map (fun e => e.item), oks⟩, ?_, ?_⟩
      · simp [reservoir_sample, if_neg hk0, hfill]
      · simp [runMainSampler, if_neg hk0, hfillE]

/-- Witness for C7 at one good line followed by a read failure (`k = 1`),
and at the same good line with no failure. -/
theorem runMainSampler_propagates_read_failure_witness :
    1 ≤ 1 ∧
      runMainSampler ([Except.ok 5, Except.error ()] : List (Except Unit ℕ)) 1
        (fun i => (i : ℚ)) = Except.error () ∧
      ∃ run, reservoir_sample ([5] : List ℕ) 1 (fun i => (i : ℚ)) = some run ∧
        runMainSampler ([Except.ok 5] : List (Except Unit ℕ)) 1
          (fun i => (i : ℚ)) = Except.ok (some run.sample) :=
  ⟨by decide,
    (runMainSampler_propagates_read_failure [5] 1 (fun i => (i : ℚ))
      (by decide)).1 () [],
    (runMainSampler_propagates_read_failure [5] 1 (fun i => (i : ℚ))
      (by decide)).2⟩

end Randline
